import Mathlib

/-!
Verification of the Ralph Wiggum iteration-loop controller
(`src/ralph_wiggum/workflows.py` and `src/ralph_wiggum/models.py`).

The workflow is a deterministic state machine that suspends only at
activity calls (the Planner / Executor / Evaluator, which are external
LLM calls).  We embed it shallowly: the controller's loop becomes a pure
Lean function parameterised over an `Env` of activity oracles, one oracle
per activity, indexed by the iteration counter (each iteration performs
exactly one `generate_tasks` call and one `evaluate_story_completion`
call, and one `execute_task` call per work item).  The continue-as-new
hand-off (`workflows.py` lines 103-116) restores an identical state in a
fresh execution and is therefore elided: we model the host as never
requesting compaction, which is behaviour-preserving for the properties
below.

Machine note: Python dataclass fields and `str` statuses are mirrored
verbatim ("pending" / "in_progress" / "completed"); Python's membership
test `tag in text` is mirrored by char-list infix containment; Python's
negative slice `history[-K:]` is mirrored including its `K = 0` corner
case (which yields the whole list).
-/

/-- A conversation turn, as appended at `workflows.py` line 173
(`{"role": "assistant", "content": response}`). -/
structure Msg where
  role : String
  content : String
deriving DecidableEq, Repr

/-- `models.Story`: a high-level work item of the PRD. -/
structure Story where
  id : String
  title : String
  description : String
  status : String
  completion_summary : String
deriving DecidableEq, Repr

/-- `models.PRD`: Product Requirements Document, a list of stories. -/
structure PRD where
  stories : List Story
deriving DecidableEq, Repr

/-- The scanning loop of `PRD.get_next_incomplete` (`models.py` lines
28-31): return the first story whose status is not `"completed"`. -/
def findIncomplete : List Story → Option Story
  | [] => none
  | s :: rest => if s.status ≠ "completed" then some s else findIncomplete rest

/-- `models.PRD.get_next_incomplete` (`models.py` lines 26-31). -/
def PRD.get_next_incomplete (prd : PRD) : Option Story :=
  findIncomplete prd.stories

/-- `models.PRD.all_complete` (`models.py` lines 33-37):
`len(self.stories) > 0 and all(s.status == "completed" ...)`. -/
def PRD.all_complete (prd : PRD) : Bool :=
  decide (0 < prd.stories.length) && prd.stories.all (fun s => s.status == "completed")

/-- Index form of `get_next_incomplete`: the position of the first story
whose status is not `"completed"`.  The Python method returns an aliased
reference which the workflow then mutates in place; the index lets the
embedding express that mutation as a functional update. -/
def nextIncompleteIdx : List Story → Option Nat
  | [] => none
  | s :: rest =>
    if s.status ≠ "completed" then some 0
    else (nextIncompleteIdx rest).map (· + 1)

/-- Functional in-place update of the `j`-th list element, embedding the
Python attribute assignments `current_story.status = ...`. -/
def updateAt : List Story → Nat → (Story → Story) → List Story
  | [], _, _ => []
  | s :: rest, 0, f => f s :: rest
  | s :: rest, n + 1, f => s :: updateAt rest n f

/-- Status of the `i`-th story, `""` when out of range. -/
def statusAt (l : List Story) (i : Nat) : String :=
  ((l.get? i).map Story.status).getD ""

section ListLemmas

theorem updateAt_get? (l : List Story) (j : Nat) (f : Story → Story) (i : Nat) :
    (updateAt l j f).get? i = if i = j then (l.get? i).map f else l.get? i := by
  induction l generalizing j i with
  | nil => simp [updateAt]
  | cons s rest ih =>
    cases j with
    | zero =>
      cases i with
      | zero => simp [updateAt]
      | succ i => simp [updateAt]
    | succ j =>
      cases i with
      | zero => simp [updateAt]
      | succ i =>
        simp only [updateAt, List.get?]
        rw [ih]
        by_cases h : i = j <;> simp [h]

theorem updateAt_length (l : List Story) (j : Nat) (f : Story → Story) :
    (updateAt l j f).length = l.length := by
  induction l generalizing j with
  | nil => rfl
  | cons s rest ih =>
    cases j with
    | zero => simp [updateAt]
    | succ j => simp [updateAt, ih]

theorem findIncomplete_none_iff (l : List Story) :
    findIncomplete l = none ↔ ∀ st ∈ l, st.status = "completed" := by
  induction l with
  | nil => simp [findIncomplete]
  | cons s rest ih =>
    by_cases h : s.status = "completed"
    · simp [findIncomplete, h, ih]
    · simp [findIncomplete, h]

theorem findIncomplete_some_iff (l : List Story) (st : Story) :
    findIncomplete l = some st ↔
      ∃ j, l.get? j = some st ∧ st.status ≠ "completed" ∧
        ∀ i st2, i < j → l.get? i = some st2 → st2.status = "completed" := by
  induction l with
  | nil => simp [findIncomplete]
  | cons s rest ih =>
    by_cases h : s.status = "completed"
    · simp only [findIncomplete, h, ne_eq, not_true_eq_false, if_false, ite_not]
      rw [ih]
      constructor
      · rintro ⟨j, hget, hne, hall⟩
        refine ⟨j + 1, by simpa using hget, hne, ?_⟩
        intro i st2 hi hget2
        cases i with
        | zero =>
          simp only [List.get?] at hget2
          cases hget2; exact h
        | succ i => exact hall i st2 (by omega) (by simpa using hget2)
      · rintro ⟨j, hget, hne, hall⟩
        cases j with
        | zero =>
          simp only [List.get?] at hget
          cases hget; exact absurd h hne
        | succ j =>
          refine ⟨j, by simpa using hget, hne, ?_⟩
          intro i st2 hi hget2
          exact hall (i + 1) st2 (by omega) (by simpa using hget2)
    · simp only [findIncomplete, h, ne_eq, not_false_eq_true, if_true]
      constructor
      · rintro hst
        cases hst
        exact ⟨0, rfl, h, by omega⟩
      · rintro ⟨j, hget, hne, hall⟩
        cases j with
        | zero =>
          simp only [List.get?] at hget
          cases hget; rfl
        | succ j =>
          have := hall 0 s (by omega) rfl
          exact absurd this h

theorem nextIncompleteIdx_none_iff (l : List Story) :
    nextIncompleteIdx l = none ↔ ∀ st ∈ l, st.status = "completed" := by
  induction l with
  | nil => simp [nextIncompleteIdx]
  | cons s rest ih =>
    by_cases h : s.status = "completed"
    · simp only [nextIncompleteIdx, h, ne_eq, not_true_eq_false, if_false, ite_not,
        Option.map_eq_none']
      rw [ih]
      simp [h]
    · simp [nextIncompleteIdx, h]

theorem nextIncompleteIdx_some (l : List Story) (j : Nat)
    (h : nextIncompleteIdx l = some j) :
    (∃ st, l.get? j = some st ∧ st.status ≠ "completed") ∧
      ∀ i st2, i < j → l.get? i = some st2 → st2.status = "completed" := by
  induction l generalizing j with
  | nil => simp [nextIncompleteIdx] at h
  | cons s rest ih =>
    by_cases hs : s.status = "completed"
    · simp only [nextIncompleteIdx, hs, ne_eq, not_true_eq_false, if_false, ite_not] at h
      rcases Option.map_eq_some'.mp h with ⟨j0, hj0, hj⟩
      subst hj
      obtain ⟨⟨st, hget, hne⟩, hall⟩ := ih j0 hj0
      refine ⟨⟨st, by simpa using hget, hne⟩, ?_⟩
      intro i st2 hi hget2
      cases i with
      | zero =>
        simp only [List.get?] at hget2
        cases hget2; exact hs
      | succ i => exact hall i st2 (by omega) (by simpa using hget2)
    · simp only [nextIncompleteIdx, hs, ne_eq, not_false_eq_true, if_true,
        Option.some.injEq] at h
      subst h
      exact ⟨⟨s, rfl, hs⟩, by omega⟩

theorem findIncomplete_eq_idx (l : List Story) :
    findIncomplete l = (nextIncompleteIdx l).bind l.get? := by
  induction l with
  | nil => rfl
  | cons s rest ih =>
    by_cases h : s.status = "completed"
    · simp only [findIncomplete, nextIncompleteIdx, h, ne_eq, not_true_eq_false,
        if_false, ite_not]
      rw [ih]
      cases nextIncompleteIdx rest <;> simp
    · simp [findIncomplete, nextIncompleteIdx, h]

theorem nextIncompleteIdx_updateAt_self (l : List Story) (j : Nat) (f : Story → Story)
    (hj : nextIncompleteIdx l = some j) (hf : ∀ st, (f st).status ≠ "completed") :
    nextIncompleteIdx (updateAt l j f) = some j := by
  induction l generalizing j with
  | nil => simp [nextIncompleteIdx] at hj
  | cons s rest ih =>
    by_cases hs : s.status = "completed"
    · simp only [nextIncompleteIdx, hs, ne_eq, not_true_eq_false, if_false, ite_not] at hj
      rcases Option.map_eq_some'.mp hj with ⟨j0, hj0, hjeq⟩
      subst hjeq
      simp only [updateAt, nextIncompleteIdx, hs, ne_eq, not_true_eq_false, if_false,
        ite_not]
      rw [ih j0 hj0]
      rfl
    · simp only [nextIncompleteIdx, hs, ne_eq, not_false_eq_true, if_true,
        Option.some.injEq] at hj
      subst hj
      simp [updateAt, nextIncompleteIdx, hf s]

theorem nextIncompleteIdx_updateAt_completed (l : List Story) (j : Nat)
    (g : Story → Story) (hj : nextIncompleteIdx l = some j)
    (hg : ∀ st, (g st).status = "completed") :
    ∀ j2, nextIncompleteIdx (updateAt l j g) = some j2 → j < j2 := by
  induction l generalizing j with
  | nil => simp [nextIncompleteIdx] at hj
  | cons s rest ih =>
    by_cases hs : s.status = "completed"
    · simp only [nextIncompleteIdx, hs, ne_eq, not_true_eq_false, if_false, ite_not] at hj
      rcases Option.map_eq_some'.mp hj with ⟨j0, hj0, hjeq⟩
      subst hjeq
      intro j2 h2
      simp only [updateAt, nextIncompleteIdx, hs, ne_eq, not_true_eq_false, if_false,
        ite_not] at h2
      rcases Option.map_eq_some'.mp h2 with ⟨j2', hj2', hjeq2⟩
      subst hjeq2
      have := ih j0 hj0 j2' hj2'
      omega
    · simp only [nextIncompleteIdx, hs, ne_eq, not_false_eq_true, if_true,
        Option.some.injEq] at hj
      subst hj
      intro j2 h2
      simp only [updateAt, nextIncompleteIdx, hg s, ne_eq, not_true_eq_false, if_false,
        ite_not] at h2
      rcases Option.map_eq_some'.mp h2 with ⟨j2', _, hjeq2⟩
      omega

end ListLemmas

/-- Claim C5 — `get_next_incomplete` returns the first story in
declaration order whose status is not `"completed"` (which re-selects an
`"in_progress"` story), and returns `none` exactly when every story has
status `"completed"`. -/
theorem next_incomplete_spec (prd : PRD) :
    (prd.get_next_incomplete = none ↔ ∀ st ∈ prd.stories, st.status = "completed")
    ∧ ∀ st, prd.get_next_incomplete = some st ↔
        ∃ j, prd.stories.get? j = some st ∧ st.status ≠ "completed" ∧
          ∀ i st2, i < j → prd.stories.get? i = some st2 → st2.status = "completed" :=
  ⟨findIncomplete_none_iff prd.stories,
   fun st => findIncomplete_some_iff prd.stories st⟩

/-- The promise tag built at `workflows.py` line 220:
`f"<promise>{input.completion_promise}</promise>"`. -/
def promiseTag (marker : String) : String :=
  "<promise>" ++ marker ++ "</promise>"

/-- Boolean prefix test on character lists. -/
def isPrefixB : List Char → List Char → Bool
  | [], _ => true
  | _ :: _, [] => false
  | a :: as, b :: bs => a == b && isPrefixB as bs

/-- Boolean contiguous-substring test on character lists. -/
def containsAux (n : List Char) : List Char → Bool
  | [] => isPrefixB n []
  | c :: rest => isPrefixB n (c :: rest) || containsAux n rest

/-- Python's substring test `needle in hay` (`workflows.py` line 221),
as contiguous-infix containment on the character lists. -/
def containsSub (needle hay : String) : Bool :=
  containsAux needle.data hay.data

theorem isPrefixB_iff (n h : List Char) : isPrefixB n h = true ↔ n <+: h := by
  induction n generalizing h with
  | nil => simp [isPrefixB]
  | cons a as ih =>
    cases h with
    | nil =>
      simp only [isPrefixB, Bool.false_eq_true, false_iff]
      rintro ⟨t, ht⟩
      simp at ht
    | cons b bs =>
      simp only [isPrefixB, Bool.and_eq_true, beq_iff_eq, ih]
      constructor
      · rintro ⟨rfl, t, rfl⟩
        exact ⟨t, rfl⟩
      · rintro ⟨t, ht⟩
        simp only [List.cons_append, List.cons.injEq] at ht
        exact ⟨ht.1, t, ht.2⟩

theorem containsAux_iff (n h : List Char) : containsAux n h = true ↔ n <:+: h := by
  induction h with
  | nil =>
    simp only [containsAux, isPrefixB_iff]
    constructor
    · rintro ⟨t, ht⟩
      simp only [List.append_eq_nil] at ht
      exact ⟨[], [], by simp [ht.1]⟩
    · rintro ⟨s, t, hst⟩
      simp only [List.append_eq_nil] at hst
      exact ⟨[], by simp [hst.1.2]⟩
  | cons c rest ih =>
    simp only [containsAux, Bool.or_eq_true, isPrefixB_iff, ih]
    constructor
    · rintro (⟨t, ht⟩ | ⟨s, t, hst⟩)
      · exact ⟨[], t, by simpa using ht⟩
      · exact ⟨c :: s, t, by simp [← hst]⟩
    · rintro ⟨s, t, hst⟩
      cases s with
      | nil => exact Or.inl ⟨t, by simpa using hst⟩
      | cons a s =>
        simp only [List.cons_append, List.cons.injEq] at hst
        exact Or.inr ⟨s, t, hst.2⟩

/-- `containsSub` really is substring containment. -/
theorem containsSub_iff (n h : String) : containsSub n h = true ↔ n.data <:+: h.data :=
  containsAux_iff n.data h.data

/-- `models.EvaluateStoryOutput`: the structured verdict of the
`evaluate_story_completion` activity. -/
structure EvaluateStoryOutput where
  is_complete : Bool
  summary : String
  updated_progress : String
deriving DecidableEq, Repr

/-- `models.RalphWorkflowInput` (`models.py` lines 40-53). -/
structure RalphWorkflowInput where
  prompt : String
  completion_promise : String
  max_iterations : Nat
  model : String
  history_window_size : Nat
  current_iteration : Nat
  conversation_history : List Msg
  prd : Option PRD
  progress_summary : String
deriving DecidableEq, Repr

/-- `models.RalphWorkflowOutput` (`models.py` lines 56-63). -/
structure RalphWorkflowOutput where
  completed : Bool
  iterations_used : Nat
  final_response : String
  completion_detected : Bool
deriving DecidableEq, Repr

/-- Results of the workflow's external activity calls (the LLM service is
an opaque oracle).  Each iteration performs exactly one `generate_tasks`
and one `evaluate_story_completion` call, so those oracles are indexed by
the iteration counter; `execute_task` is additionally indexed by the task
position and receives the rolling-history window the workflow passes it;
`evaluate_story_completion` also receives the progress summary the
workflow passes it (`workflows.py` line 182). -/
structure Env where
  generatePRD : PRD
  genTasks : Nat → List String
  execTask : Nat → Nat → List Msg → String
  evalStory : Nat → String → EvaluateStoryOutput
  evalOverall : PRD → String

/-- The controller's mutable fields that evolve across loop iterations
(`self._iteration`, `self._history`, `self._prd`, `self._progress_summary`). -/
structure LoopState where
  iteration : Nat
  history : List Msg
  prd : PRD
  progressSummary : String
deriving DecidableEq, Repr

/-- `RalphWorkflow._get_rolling_history` (`workflows.py` lines 73-75):
`self._history[-self._history_window_size:]`.  A Python slice `l[-K:]`
with `K > 0` keeps the last `min(K, len(l))` elements; with `K = 0` it is
`l[0:]`, the whole list. -/
def rollingHistory (K : Nat) (hist : List Msg) : List Msg :=
  if K = 0 then hist else hist.drop (hist.length - K)

/-- Phase 4 of the loop body (`workflows.py` lines 143-173): execute the
`n` tasks in order; each call receives the rolling window of the current
transcript and its response is appended to the transcript.  Also returns
the trace of windows passed to the executor, for auditing what context
each call received.  `i` is the index of the next task. -/
def execTasks (env : Env) (K iter : Nat) : Nat → Nat → List Msg → List Msg × List (List Msg)
  | 0, _, hist => (hist, [])
  | n + 1, i, hist =>
    let w := rollingHistory K hist
    let out := env.execTask iter i w
    let r := execTasks env K iter n (i + 1) (hist ++ [⟨"assistant", out⟩])
    (r.1, w :: r.2)

/-- One loop-body iteration of `RalphWorkflow.run` (`workflows.py` lines
118-199) once the story at index `j` has been selected: mark it
`"in_progress"`, generate this iteration's tasks, execute them, evaluate
the story (on the pre-iteration progress summary), mark the story
`"completed"` with its summary if the verdict is complete (otherwise it
stays `"in_progress"`), install the updated progress summary, and
increment the iteration counter. -/
def iterBody (env : Env) (K : Nat) (s : LoopState) (j : Nat) : LoopState :=
  let prd1 : PRD := ⟨updateAt s.prd.stories j (fun st => { st with status := "in_progress" })⟩
  let tasks := env.genTasks s.iteration
  let hist2 := (execTasks env K s.iteration tasks.length 0 s.history).1
  let ev := env.evalStory s.iteration s.progressSummary
  let prd2 : PRD :=
    if ev.is_complete then
      ⟨updateAt prd1.stories j
        (fun st => { st with status := "completed", completion_summary := ev.summary })⟩
    else prd1
  { iteration := s.iteration + 1, history := hist2, prd := prd2,
    progressSummary := ev.updated_progress }

/-- One pass of the controller's step relation: select the next
incomplete story and run the loop body on it; when every story is
completed the state is left unchanged (the loop breaks). -/
def stepBody (env : Env) (K : Nat) (s : LoopState) : LoopState :=
  match nextIncompleteIdx s.prd.stories with
  | none => s
  | some j => iterBody env K s j

/-- The `while self._iteration < input.max_iterations` loop
(`workflows.py` lines 101-199).  `fuel` is an upper bound on the number
of remaining body executions; each body execution increments the
iteration counter, so `max_iterations` fuel always suffices. -/
def runLoop (env : Env) (K maxIter : Nat) : Nat → LoopState → LoopState
  | 0, s => s
  | fuel + 1, s =>
    if s.iteration < maxIter then
      match nextIncompleteIdx s.prd.stories with
      | none => s
      | some j => runLoop env K maxIter fuel (iterBody env K s j)
    else s

/-- Phase 6 of `RalphWorkflow.run` (`workflows.py` lines 201-237): when
every story is completed, run the overall evaluation and report the
syntactic `<promise>{marker}</promise>` check on its response; otherwise
the budget was exhausted and the run reports `completed = False`,
`completion_detected = False`, with the progress summary as final
response (`final_response = self._progress_summary if
self._progress_summary else ""`). -/
def finishRun (env : Env) (promise : String) (sF : LoopState) : RalphWorkflowOutput :=
  if sF.prd.all_complete then
    { completed := true, iterations_used := sF.iteration,
      final_response := env.evalOverall sF.prd,
      completion_detected := containsSub (promiseTag promise) (env.evalOverall sF.prd) }
  else
    { completed := false, iterations_used := sF.iteration,
      final_response := if sF.progressSummary = "" then "" else sF.progressSummary,
      completion_detected := false }

/-- `RalphWorkflow.run` (`workflows.py` lines 77-237): restore state from
the input (continue-as-new resumption), generate the PRD when absent
(phase 1), run the `while` loop, and produce the terminal result. -/
def RalphWorkflow.run (env : Env) (input : RalphWorkflowInput) : RalphWorkflowOutput :=
  finishRun env input.completion_promise
    (runLoop env input.history_window_size input.max_iterations input.max_iterations
      { iteration := input.current_iteration, history := input.conversation_history,
        prd := input.prd.getD env.generatePRD,
        progressSummary := input.progress_summary })

/-- Plan used to witness claim C5: story 1 completed, story 2 in progress. -/
def prdWitnessC5 : PRD :=
  ⟨[⟨"story-1", "a", "d1", "completed", "done"⟩,
    ⟨"story-2", "b", "d2", "in_progress", ""⟩]⟩

/-- Witness for C5 at a concrete plan: the `in_progress` second story is
re-selected. -/
theorem next_incomplete_spec_witness :
    prdWitnessC5.get_next_incomplete = some ⟨"story-2", "b", "d2", "in_progress", ""⟩ :=
  ((next_incomplete_spec prdWitnessC5).2 ⟨"story-2", "b", "d2", "in_progress", ""⟩).mpr
    ⟨1, by decide, by decide, by
      intro i st2 hi hget
      have hi0 : i = 0 := by omega
      subst hi0
      simp only [List.get?, prdWitnessC5, Option.some.injEq] at hget
      rw [← hget]⟩

section ExitPathLemmas

theorem finishRun_completed_iff (env : Env) (promise : String) (sF : LoopState)
    (h : (finishRun env promise sF).completed = true) :
    (finishRun env promise sF).completion_detected = true ↔
      containsSub (promiseTag promise) (finishRun env promise sF).final_response = true := by
  by_cases hc : sF.prd.all_complete <;> simp [finishRun, hc] at h ⊢

theorem finishRun_budget (env : Env) (promise : String) (sF : LoopState)
    (h : (finishRun env promise sF).completed = false) :
    (finishRun env promise sF).completion_detected = false := by
  by_cases hc : sF.prd.all_complete <;> simp [finishRun, hc] at h ⊢

theorem runLoop_no_story (env : Env) (K maxIter fuel : Nat) (s : LoopState)
    (h : nextIncompleteIdx s.prd.stories = none) :
    runLoop env K maxIter fuel s = s := by
  cases fuel with
  | zero => rfl
  | succ fuel =>
    by_cases hlt : s.iteration < maxIter
    · simp [runLoop, hlt, h]
    · simp [runLoop, hlt]

end ExitPathLemmas

/-- Claim C1 — on the all-stories-completed exit path the reported
`completion_detected` is true iff the overall-evaluation response
contains the exact substring `<promise>M</promise>`; a response
containing the marker only as a bare substring (`"COMP is not COMPLETE"`
against marker `COMPLETE`) does not satisfy the check. -/
theorem completion_detected_exact_tag :
    (∀ env inp, (RalphWorkflow.run env inp).completed = true →
      ((RalphWorkflow.run env inp).completion_detected = true ↔
        containsSub (promiseTag inp.completion_promise)
          (RalphWorkflow.run env inp).final_response = true))
    ∧ containsSub "COMPLETE" "COMP is not COMPLETE" = true
    ∧ containsSub (promiseTag "COMPLETE") "COMP is not COMPLETE" = false := by
  refine ⟨?_, by decide, by decide⟩
  intro env inp h
  exact finishRun_completed_iff env inp.completion_promise _ h

/-- Environment for the C1 witness: a one-story plan whose evaluation
succeeds immediately and whose overall evaluation emits the tag. -/
def envC1 : Env :=
  { generatePRD := ⟨[⟨"story-1", "t", "d", "pending", ""⟩]⟩,
    genTasks := fun _ => ["task"],
    execTask := fun _ _ _ => "output",
    evalStory := fun _ _ => ⟨true, "done", "- did it"⟩,
    evalOverall := fun _ => "All done! <promise>COMPLETE</promise>" }

/-- Fresh-run input with marker `COMPLETE` and budget 5. -/
def inpC1 : RalphWorkflowInput :=
  { prompt := "p", completion_promise := "COMPLETE", max_iterations := 5, model := "m",
    history_window_size := 3, current_iteration := 0, conversation_history := [],
    prd := none, progress_summary := "" }

/-- Witness for C1 on a concrete completing run. -/
theorem completion_detected_exact_tag_witness :
    (RalphWorkflow.run envC1 inpC1).completion_detected = true ↔
      containsSub (promiseTag "COMPLETE")
        (RalphWorkflow.run envC1 inpC1).final_response = true :=
  completion_detected_exact_tag.1 envC1 inpC1 (by decide)

/-- Environment for the C2 counterexample: the story evaluator never
completes but writes the literal promise tag into the progress summary,
which becomes the final response on the budget-exhausted path. -/
def envC2 : Env :=
  { generatePRD := ⟨[⟨"story-1", "t", "d", "pending", ""⟩]⟩,
    genTasks := fun _ => [],
    execTask := fun _ _ _ => "o",
    evalStory := fun _ _ => ⟨false, "", "<promise>COMPLETE</promise>"⟩,
    evalOverall := fun _ => "unused" }

/-- Fresh-run input with marker `COMPLETE` and budget 1. -/
def inpC2 : RalphWorkflowInput :=
  { prompt := "p", completion_promise := "COMPLETE", max_iterations := 1, model := "m",
    history_window_size := 3, current_iteration := 0, conversation_history := [],
    prd := none, progress_summary := "" }

/-- Counterexample to claim C2 as stated: on the budget-exhausted exit
path the final response contains the exact `<promise>COMPLETE</promise>`
substring, yet `completion_detected` is `false` — the budget path
hardcodes `completion_detected = False` (`workflows.py` line 236) and
performs no tag check on its final response. -/
theorem completion_detected_budget_counterexample :
    (RalphWorkflow.run envC2 inpC2).completed = false
    ∧ containsSub (promiseTag "COMPLETE")
        (RalphWorkflow.run envC2 inpC2).final_response = true
    ∧ (RalphWorkflow.run envC2 inpC2).completion_detected = false := by
  decide

/-- Claim C2 (amended) — the reported `completion_detected` equals the
syntactic tag check on the final response only on the all-stories-completed
exit path; on the budget-exhausted path it is unconditionally `false`,
even when the final response (the progress summary) contains the tag. -/
theorem completion_detected_two_paths :
    ∀ env inp,
      ((RalphWorkflow.run env inp).completed = true →
        ((RalphWorkflow.run env inp).completion_detected = true ↔
          containsSub (promiseTag inp.completion_promise)
            (RalphWorkflow.run env inp).final_response = true))
      ∧ ((RalphWorkflow.run env inp).completed = false →
        (RalphWorkflow.run env inp).completion_detected = false) := by
  intro env inp
  exact ⟨fun h => finishRun_completed_iff env inp.completion_promise _ h,
         fun h => finishRun_budget env inp.completion_promise _ h⟩

/-- Witness for C2 (amended) on the concrete budget-exhausted run. -/
theorem completion_detected_two_paths_witness :
    (RalphWorkflow.run envC2 inpC2).completion_detected = false :=
  (completion_detected_two_paths envC2 inpC2).2 (by decide)

/-- Claim C10 — a plan with zero stories makes the run terminate at once
with `completed = false`, `iterations_used = 0`, `completion_detected =
false`; the result does not depend on the task-generation, executor, or
evaluator oracles (they are never consulted). -/
theorem empty_plan_immediate_exit :
    ∀ env inp, inp.prd = none → inp.current_iteration = 0 →
      env.generatePRD.stories = [] →
      ((RalphWorkflow.run env inp).completed = false
        ∧ (RalphWorkflow.run env inp).iterations_used = 0
        ∧ (RalphWorkflow.run env inp).completion_detected = false)
      ∧ ∀ env2 : Env, env2.generatePRD = env.generatePRD →
          RalphWorkflow.run env2 inp = RalphWorkflow.run env inp := by
  intro env inp hprd hit hstories
  have key : ∀ e : Env, e.generatePRD.stories = [] →
      RalphWorkflow.run e inp =
        { completed := false, iterations_used := 0,
          final_response :=
            if inp.progress_summary = "" then "" else inp.progress_summary,
          completion_detected := false } := by
    intro e he
    unfold RalphWorkflow.run
    rw [hprd]
    rw [runLoop_no_story]
    · simp [finishRun, PRD.all_complete, he, hit]
    · simp [he, nextIncompleteIdx]
  refine ⟨?_, ?_⟩
  · rw [key env hstories]
    exact ⟨rfl, rfl, rfl⟩
  · intro env2 he2
    rw [key env2 (by rw [he2, hstories]), key env hstories]

/-- Oracle-free environment with an empty generated plan, for C10. -/
def envC10 : Env :=
  { generatePRD := ⟨[]⟩, genTasks := fun _ => [], execTask := fun _ _ _ => "",
    evalStory := fun _ _ => ⟨false, "", ""⟩, evalOverall := fun _ => "" }

/-- Fresh-run input with budget 4 for the C10 witness. -/
def inpC10 : RalphWorkflowInput :=
  { prompt := "p", completion_promise := "DONE", max_iterations := 4, model := "m",
    history_window_size := 3, current_iteration := 0, conversation_history := [],
    prd := none, progress_summary := "" }

/-- Witness for C10 on a concrete empty-plan run. -/
theorem empty_plan_immediate_exit_witness :
    (RalphWorkflow.run envC10 inpC10).completed = false
    ∧ (RalphWorkflow.run envC10 inpC10).iterations_used = 0
    ∧ (RalphWorkflow.run envC10 inpC10).completion_detected = false :=
  (empty_plan_immediate_exit envC10 inpC10 rfl rfl rfl).1

section BudgetLemmas

theorem all_complete_false_of_incomplete (prd : PRD)
    (h : ∃ st ∈ prd.stories, st.status ≠ "completed") :
    prd.all_complete = false := by
  obtain ⟨st, hmem, hne⟩ := h
  rw [Bool.eq_false_iff]
  intro hall
  simp only [PRD.all_complete, Bool.and_eq_true, decide_eq_true_eq, List.all_eq_true,
    beq_iff_eq] at hall
  exact hne (hall.2 st hmem)

theorem runLoop_never_complete (env : Env) (K maxIter : Nat)
    (heval : ∀ i ps, (env.evalStory i ps).is_complete = false) :
    ∀ fuel s, (∃ st ∈ s.prd.stories, st.status ≠ "completed") →
      maxIter ≤ s.iteration + fuel →
      (runLoop env K maxIter fuel s).iteration = max s.iteration maxIter
      ∧ ∃ st ∈ (runLoop env K maxIter fuel s).prd.stories, st.status ≠ "completed" := by
  intro fuel
  induction fuel with
  | zero =>
    intro s hex hle
    simp only [runLoop]
    exact ⟨by omega, hex⟩
  | succ fuel ih =>
    intro s hex hle
    by_cases hlt : s.iteration < maxIter
    · have hsel : ∃ j, nextIncompleteIdx s.prd.stories = some j := by
        cases hni : nextIncompleteIdx s.prd.stories with
        | none =>
          rw [nextIncompleteIdx_none_iff] at hni
          obtain ⟨st, hmem, hne⟩ := hex
          exact absurd (hni st hmem) hne
        | some j => exact ⟨j, rfl⟩
      obtain ⟨j, hj⟩ := hsel
      have hstep : runLoop env K maxIter (fuel + 1) s
          = runLoop env K maxIter fuel (iterBody env K s j) := by
        simp [runLoop, hlt, hj]
      obtain ⟨⟨st, hget, hne⟩, _⟩ := nextIncompleteIdx_some _ _ hj
      have hbody : ∃ st2 ∈ (iterBody env K s j).prd.stories, st2.status ≠ "completed" := by
        have hprd2 : (iterBody env K s j).prd
            = ⟨updateAt s.prd.stories j (fun st => { st with status := "in_progress" })⟩ := by
          simp [iterBody, heval]
        refine ⟨{ st with status := "in_progress" }, ?_, by simp⟩
        rw [hprd2]
        apply List.get?_mem (n := j)
        rw [updateAt_get?, if_pos rfl, hget]
        rfl
      have hit : (iterBody env K s j).iteration = s.iteration + 1 := rfl
      obtain ⟨h1, h2⟩ := ih (iterBody env K s j) hbody (by rw [hit]; omega)
      rw [hstep]
      exact ⟨by rw [h1, hit]; omega, h2⟩
    · have hstep : runLoop env K maxIter (fuel + 1) s = s := by
        simp [runLoop, hlt]
      rw [hstep]
      exact ⟨by omega, hex⟩

end BudgetLemmas

/-- Environment for the C3 counterexample: empty generated plan,
story evaluator constantly incomplete. -/
def envC3 : Env :=
  { generatePRD := ⟨[]⟩, genTasks := fun _ => [], execTask := fun _ _ _ => "",
    evalStory := fun _ _ => ⟨false, "", ""⟩, evalOverall := fun _ => "" }

/-- Fresh-run input with budget 1 for the C3 counterexample. -/
def inpC3 : RalphWorkflowInput :=
  { prompt := "p", completion_promise := "DONE", max_iterations := 1, model := "m",
    history_window_size := 3, current_iteration := 0, conversation_history := [],
    prd := none, progress_summary := "" }

/-- Counterexample to claim C3 as stated: with an empty generated plan
the story evaluator never returns a complete verdict (it is never even
invoked), yet the run terminates with `iterations_used = 0`, not
`max_iterations = 1`. -/
theorem budget_empty_plan_counterexample :
    (∀ i ps, (envC3.evalStory i ps).is_complete = false)
    ∧ inpC3.max_iterations = 1
    ∧ (RalphWorkflow.run envC3 inpC3).iterations_used = 0
    ∧ (RalphWorkflow.run envC3 inpC3).completed = false :=
  ⟨fun _ _ => rfl, rfl, by decide, by decide⟩

/-- Claim C3 (amended) — for every configured `max_iterations = N`, if
the initial plan contains at least one not-yet-completed story and the
story evaluator never returns a complete verdict, a fresh run (starting
at iteration 0) terminates with `iterations_used = N` and
`completed = false`. -/
theorem budget_exhaustion_iterations :
    ∀ env inp, inp.current_iteration = 0 →
      (∃ st ∈ (inp.prd.getD env.generatePRD).stories, st.status ≠ "completed") →
      (∀ i ps, (env.evalStory i ps).is_complete = false) →
      (RalphWorkflow.run env inp).iterations_used = inp.max_iterations
      ∧ (RalphWorkflow.run env inp).completed = false := by
  intro env inp hit hex heval
  unfold RalphWorkflow.run
  set s0 : LoopState :=
    { iteration := inp.current_iteration, history := inp.conversation_history,
      prd := inp.prd.getD env.generatePRD, progressSummary := inp.progress_summary }
    with hs0
  obtain ⟨h1, h2⟩ := runLoop_never_complete env inp.history_window_size
    inp.max_iterations heval inp.max_iterations s0 hex (by omega)
  have hs0it : s0.iteration = 0 := hit
  have hiter : (runLoop env inp.history_window_size inp.max_iterations
      inp.max_iterations s0).iteration = inp.max_iterations := by
    rw [h1, hs0it]
    omega
  have hnac := all_complete_false_of_incomplete _ h2
  constructor <;> simp [finishRun, hnac, hiter]

/-- Environment for the C3 witness: one pending story, evaluator
constantly incomplete. -/
def envC3W : Env :=
  { generatePRD := ⟨[⟨"story-1", "t", "d", "pending", ""⟩]⟩,
    genTasks := fun _ => ["t"],
    execTask := fun _ _ _ => "o",
    evalStory := fun _ _ => ⟨false, "", "- w"⟩,
    evalOverall := fun _ => "" }

/-- Fresh-run input with budget 3 for the C3 witness. -/
def inpC3W : RalphWorkflowInput :=
  { prompt := "p", completion_promise := "DONE", max_iterations := 3, model := "m",
    history_window_size := 3, current_iteration := 0, conversation_history := [],
    prd := none, progress_summary := "" }

/-- Witness for C3 (amended) at a concrete never-completing run. -/
theorem budget_exhaustion_iterations_witness :
    (RalphWorkflow.run envC3W inpC3W).iterations_used = 3
    ∧ (RalphWorkflow.run envC3W inpC3W).completed = false :=
  budget_exhaustion_iterations envC3W inpC3W rfl
    ⟨⟨"story-1", "t", "d", "pending", ""⟩, by decide, by decide⟩
    (fun _ _ => rfl)

section WindowLemmas

theorem rollingHistory_of_pos (K : Nat) (hK : K ≠ 0) (hist : List Msg) :
    (rollingHistory K hist).length = min K hist.length
    ∧ rollingHistory K hist <:+ hist := by
  constructor
  · simp only [rollingHistory]
    rw [if_neg hK, List.length_drop]
    omega
  · simp only [rollingHistory]
    rw [if_neg hK]
    exact ⟨hist.take (hist.length - K), List.take_append_drop _ _⟩

theorem execTasks_window (env : Env) (K iter : Nat) (hK : K ≠ 0) :
    ∀ n i0 (hist : List Msg) j w,
      (execTasks env K iter n i0 hist).2.get? j = some w →
      w.length = min K (hist.length + j) := by
  intro n
  induction n with
  | zero =>
    intro i0 hist j w h
    simp [execTasks] at h
  | succ n ih =>
    intro i0 hist j w h
    simp only [execTasks] at h
    cases j with
    | zero =>
      simp only [List.get?, Option.some.injEq] at h
      rw [← h]
      simpa using (rollingHistory_of_pos K hK hist).1
    | succ j =>
      simp only [List.get?] at h
      have := ih (i0 + 1) (hist ++ [⟨"assistant", env.execTask iter i0 (rollingHistory K hist)⟩]) j w h
      simp only [List.length_append, List.length_cons, List.length_nil] at this
      rw [this]
      omega

theorem execTasks_final_length (env : Env) (K iter : Nat) :
    ∀ n i0 (hist : List Msg),
      (execTasks env K iter n i0 hist).1.length = hist.length + n := by
  intro n
  induction n with
  | zero => intro i0 hist; simp [execTasks]
  | succ n ih =>
    intro i0 hist
    simp only [execTasks]
    rw [ih]
    simp
    omega

theorem execTasks_append_only (env : Env) (K iter : Nat) :
    ∀ n i0 (hist : List Msg), ∃ t, (execTasks env K iter n i0 hist).1 = hist ++ t := by
  intro n
  induction n with
  | zero => intro i0 hist; exact ⟨[], by simp [execTasks]⟩
  | succ n ih =>
    intro i0 hist
    obtain ⟨t, ht⟩ := ih (i0 + 1)
      (hist ++ [⟨"assistant", env.execTask iter i0 (rollingHistory K hist)⟩])
    refine ⟨⟨"assistant", env.execTask iter i0 (rollingHistory K hist)⟩ :: t, ?_⟩
    simp only [execTasks, ht, List.append_assoc, List.cons_append, List.nil_append]

end WindowLemmas

/-- Counterexample to claim C6 at `K = 0`: Python `history[-0:]` is
`history[0:]`, the whole transcript, not the last `min(0, L) = 0`
entries. -/
theorem rolling_window_zero_counterexample :
    (rollingHistory 0 [⟨"assistant", "x"⟩]).length = 1
    ∧ min 0 ([(⟨"assistant", "x"⟩ : Msg)]).length = 0 := by
  decide

/-- Claim C6 (amended) — for every configured window size `K ≥ 1`, the
rolling window equals the last `min(K, L)` entries of the transcript
(`L` its current length) and is a suffix of it; within an iteration the
`j`-th executor call receives a window of length `min(K, L0 + j)` where
`L0` is the transcript length at the iteration's start; executing tasks
only appends to the transcript (one entry per call), never truncating
or otherwise mutating it. -/
theorem rolling_window_spec :
    ∀ K, 1 ≤ K →
      (∀ hist : List Msg, (rollingHistory K hist).length = min K hist.length
          ∧ rollingHistory K hist <:+ hist)
      ∧ (∀ env iter n i0 (hist : List Msg) j w,
          (execTasks env K iter n i0 hist).2.get? j = some w →
            w.length = min K (hist.length + j))
      ∧ (∀ env iter n i0 (hist : List Msg),
          (execTasks env K iter n i0 hist).1.length = hist.length + n
          ∧ ∃ t, (execTasks env K iter n i0 hist).1 = hist ++ t) := by
  intro K hK
  have hK0 : K ≠ 0 := by omega
  exact ⟨fun hist => rollingHistory_of_pos K hK0 hist,
         fun env iter n i0 hist j w h => execTasks_window env K iter hK0 n i0 hist j w h,
         fun env iter n i0 hist =>
           ⟨execTasks_final_length env K iter n i0 hist,
            execTasks_append_only env K iter n i0 hist⟩⟩

/-- Witness for C6 (amended) at `K = 3` on a two-entry transcript. -/
theorem rolling_window_spec_witness :
    (rollingHistory 3 [⟨"assistant", "a"⟩, ⟨"assistant", "b"⟩]).length
        = min 3 ([(⟨"assistant", "a"⟩ : Msg), ⟨"assistant", "b"⟩]).length
    ∧ rollingHistory 3 [⟨"assistant", "a"⟩, ⟨"assistant", "b"⟩]
        <:+ [⟨"assistant", "a"⟩, ⟨"assistant", "b"⟩] :=
  (rolling_window_spec 3 (by decide)).1 [⟨"assistant", "a"⟩, ⟨"assistant", "b"⟩]

/-- Environment for the C8 counterexample and witness: the planner
returns an empty task list, the evaluator reports its own invocation in
the progress summary. -/
def envC8 : Env :=
  { generatePRD := ⟨[⟨"story-1", "t", "d", "pending", ""⟩]⟩,
    genTasks := fun _ => [],
    execTask := fun _ _ _ => "o",
    evalStory := fun _ _ => ⟨false, "", "evaluator ran"⟩,
    evalOverall := fun _ => "" }

/-- Fresh-run input with budget 1 for the C8 counterexample. -/
def inpC8 : RalphWorkflowInput :=
  { prompt := "p", completion_promise := "DONE", max_iterations := 1, model := "m",
    history_window_size := 3, current_iteration := 0, conversation_history := [],
    prd := none, progress_summary := "" }

/-- Counterexample to claim C8: an empty work-item list is not treated
as a fatal call failure — the run continues, still invokes the story
evaluator (its progress note becomes the final response), and advances
the iteration counter to 1. -/
theorem empty_tasks_counterexample :
    envC8.genTasks 0 = []
    ∧ (RalphWorkflow.run envC8 inpC8).iterations_used = 1
    ∧ (RalphWorkflow.run envC8 inpC8).final_response = "evaluator ran"
    ∧ (RalphWorkflow.run envC8 inpC8).completed = false := by
  decide

/-- Claim C8 (amended) — when the task-generation step returns an empty
work-item list the controller silently proceeds with zero tasks: the
transcript is unchanged (no executor call is made), the story evaluator
is still invoked (the new progress summary is its output on the
pre-iteration summary), and the iteration counter advances by one. -/
theorem empty_tasks_silent_continuation :
    ∀ env K s j, nextIncompleteIdx s.prd.stories = some j →
      env.genTasks s.iteration = [] →
      (stepBody env K s).history = s.history
      ∧ (stepBody env K s).iteration = s.iteration + 1
      ∧ (stepBody env K s).progressSummary
          = (env.evalStory s.iteration s.progressSummary).updated_progress := by
  intro env K s j hj htasks
  simp [stepBody, hj, iterBody, htasks, execTasks]

/-- Controller state for the C8 witness: one pending story, fresh run. -/
def sC8 : LoopState :=
  { iteration := 0, history := [],
    prd := ⟨[⟨"story-1", "t", "d", "pending", ""⟩]⟩, progressSummary := "" }

/-- Witness for C8 (amended) at a concrete empty-task iteration. -/
theorem empty_tasks_silent_continuation_witness :
    (stepBody envC8 3 sC8).history = sC8.history
    ∧ (stepBody envC8 3 sC8).iteration = sC8.iteration + 1
    ∧ (stepBody envC8 3 sC8).progressSummary
        = (envC8.evalStory sC8.iteration sC8.progressSummary).updated_progress :=
  empty_tasks_silent_continuation envC8 3 sC8 0 (by decide) rfl

/-- The structured tool output of the story-evaluation model call:
completion verdict, story summary, and this iteration's progress note. -/
structure StoryEvalRaw where
  is_complete : Bool
  summary : String
  progress_update : String

/-- Modelled from the spec: the story-scoped `evaluate_story_completion`
activity implementation is absent from `src` (`activities.py` is a stale
flat-mode version that predates the Story workflow; only the activity's
dataclass declarations and its caller are present).  Per the spec — the
rolling progress summary is "monotonically appended-to, never
truncated" — and the stale flat-mode activity's construction of
`updated_progress` (old summary, newline, then a bullet with this
iteration's note), the activity returns an updated progress summary
formed by appending this iteration's progress note to the summary it was
given. -/
def evaluate_story_completion (raw : StoryEvalRaw) (progress_summary : String) :
    EvaluateStoryOutput :=
  { is_complete := raw.is_complete, summary := raw.summary,
    updated_progress :=
      (if progress_summary = "" then "" else progress_summary ++ "\n")
        ++ "- " ++ raw.progress_update }

theorem string_data_append (a b : String) : (a ++ b).data = a.data ++ b.data := by
  cases a
  cases b
  rfl

theorem stepBody_progress_append (env : Env) (K : Nat) (raw : Nat → StoryEvalRaw)
    (henv : ∀ i ps, env.evalStory i ps = evaluate_story_completion (raw i) ps)
    (s : LoopState) :
    s.progressSummary.data <+: (stepBody env K s).progressSummary.data := by
  cases hsel : nextIncompleteIdx s.prd.stories with
  | none =>
    simp only [stepBody, hsel]
    exact ⟨[], List.append_nil _⟩
  | some j =>
    have hps : (stepBody env K s).progressSummary
        = (evaluate_story_completion (raw s.iteration) s.progressSummary).updated_progress := by
      simp [stepBody, hsel, iterBody, henv]
    rw [hps]
    by_cases hempty : s.progressSummary = ""
    · rw [hempty]
      exact ⟨_, rfl⟩
    · simp only [evaluate_story_completion, if_neg hempty, string_data_append]
      exact ⟨"\n".data ++ ("- ".data ++ (raw s.iteration).progress_update.data),
        by simp [List.append_assoc]⟩

/-- Claim C7 — with the story evaluator modelled from the spec as
appending this iteration's note to the summary it received (the activity
implementation is absent from `src`), the progress summary held by the
controller before any iteration's evaluation is a prefix of the summary
held after it: the summary is monotonically appended-to and never
truncated. -/
theorem progress_summary_monotone :
    ∀ env K (raw : Nat → StoryEvalRaw),
      (∀ i ps, env.evalStory i ps = evaluate_story_completion (raw i) ps) →
      ∀ s0 n, ((stepBody env K)^[n] s0).progressSummary.data
          <+: ((stepBody env K)^[n + 1] s0).progressSummary.data := by
  intro env K raw henv s0 n
  rw [Function.iterate_succ_apply']
  exact stepBody_progress_append env K raw henv _

/-- Raw evaluator verdicts for the C7 witness. -/
def rawC7 : Nat → StoryEvalRaw := fun _ => ⟨false, "", "working"⟩

/-- Environment for the C7 witness: evaluator built from the modelled
appending activity. -/
def envC7 : Env :=
  { generatePRD := ⟨[⟨"story-1", "t", "d", "pending", ""⟩]⟩,
    genTasks := fun _ => ["t"],
    execTask := fun _ _ _ => "o",
    evalStory := fun i ps => evaluate_story_completion (rawC7 i) ps,
    evalOverall := fun _ => "" }

/-- Controller state for the C7 witness. -/
def sC7 : LoopState :=
  { iteration := 0, history := [],
    prd := ⟨[⟨"story-1", "t", "d", "pending", ""⟩]⟩, progressSummary := "start" }

/-- Witness for C7 at a concrete run state and iteration. -/
theorem progress_summary_monotone_witness :
    ((stepBody envC7 3)^[1] sC7).progressSummary.data
        <+: ((stepBody envC7 3)^[2] sC7).progressSummary.data :=
  progress_summary_monotone envC7 3 rawC7 (fun _ _ => rfl) sC7 1

/-- Reachable-plan shape invariant: a (possibly empty) completed block,
then — at boundary index `a` — one story that is pending or in progress,
then pending stories only. -/
def PlanShape (l : List Story) : Prop :=
  ∃ a, (∀ i, i < a → i < l.length → statusAt l i = "completed")
    ∧ (∀ i, a < i → i < l.length → statusAt l i = "pending")
    ∧ (a < l.length → statusAt l a = "pending" ∨ statusAt l a = "in_progress")

section ShapeLemmas

theorem statusAt_updateAt_self (l : List Story) (j : Nat) (f : Story → Story) :
    statusAt (updateAt l j f) j = ((l.get? j).map (fun st => (f st).status)).getD "" := by
  unfold statusAt
  rw [updateAt_get?, if_pos rfl]
  cases l.get? j <;> rfl

theorem statusAt_updateAt_ne (l : List Story) (j : Nat) (f : Story → Story) (i : Nat)
    (h : i ≠ j) : statusAt (updateAt l j f) i = statusAt l i := by
  unfold statusAt
  rw [updateAt_get?, if_neg h]

theorem statusAt_of_get? (l : List Story) (i : Nat) (st : Story)
    (h : l.get? i = some st) : statusAt l i = st.status := by
  unfold statusAt
  rw [h]
  rfl

theorem get?_lt_length (l : List Story) (i : Nat) (st : Story)
    (h : l.get? i = some st) : i < l.length := by
  by_contra hge
  push_neg at hge
  rw [List.get?_eq_none.mpr hge] at h
  cases h

theorem get?_of_lt_length (l : List Story) (i : Nat) (h : i < l.length) :
    ∃ st, l.get? i = some st := by
  cases hg : l.get? i with
  | none =>
    rw [List.get?_eq_none] at hg
    omega
  | some st => exact ⟨st, rfl⟩

theorem planShape_of_allPending (l : List Story)
    (h : ∀ st ∈ l, st.status = "pending") : PlanShape l := by
  refine ⟨0, by omega, ?_, ?_⟩
  · intro i _ hlen
    obtain ⟨st, hg⟩ := get?_of_lt_length l i hlen
    rw [statusAt_of_get? l i st hg]
    exact h st (List.get?_mem hg)
  · intro hlen
    obtain ⟨st, hg⟩ := get?_of_lt_length l 0 hlen
    rw [statusAt_of_get? l 0 st hg]
    exact Or.inl (h st (List.get?_mem hg))

theorem planShape_at_most_one (l : List Story) (h : PlanShape l) :
    ∀ i j, statusAt l i = "in_progress" → statusAt l j = "in_progress" → i = j := by
  obtain ⟨a, h1, h2, _⟩ := h
  have key : ∀ i, statusAt l i = "in_progress" → i = a := by
    intro i hi
    have hlen : i < l.length := by
      by_contra hge
      push_neg at hge
      rw [statusAt, List.get?_eq_none.mpr hge] at hi
      simp at hi
    rcases lt_trichotomy i a with hlt | heq | hgt
    · rw [h1 i hlt hlen] at hi
      simp at hi
    · exact heq
    · rw [h2 i hgt hlen] at hi
      simp at hi
  intro i j hi hj
  rw [key i hi, key j hj]

theorem planShape_sel_boundary (l : List Story) (j : Nat) (h : PlanShape l)
    (hsel : nextIncompleteIdx l = some j) :
    (∀ i, i < j → i < l.length → statusAt l i = "completed")
    ∧ (∀ i, j < i → i < l.length → statusAt l i = "pending")
    ∧ j < l.length := by
  obtain ⟨a, h1, h2, h3⟩ := h
  obtain ⟨⟨st, hget, hne⟩, hall⟩ := nextIncompleteIdx_some _ _ hsel
  have hjlen : j < l.length := get?_lt_length l j st hget
  have hja : j = a := by
    rcases lt_trichotomy j a with hlt | heq | hgt
    · have := h1 j hlt hjlen
      rw [statusAt_of_get? l j st hget] at this
      exact absurd this hne
    · exact heq
    · have halen : a < l.length := lt_trans hgt hjlen
      obtain ⟨sta, hga⟩ := get?_of_lt_length l a halen
      have hcomp := hall a sta hgt hga
      rcases h3 halen with hp | hip
      · rw [statusAt_of_get? l a sta hga] at hp
        rw [hp] at hcomp
        simp at hcomp
      · rw [statusAt_of_get? l a sta hga] at hip
        rw [hip] at hcomp
        simp at hcomp
  subst hja
  exact ⟨h1, h2, hjlen⟩

theorem planShape_marked (l : List Story) (j : Nat) (h : PlanShape l)
    (hsel : nextIncompleteIdx l = some j) :
    PlanShape (updateAt l j (fun st => { st with status := "in_progress" })) := by
  obtain ⟨h1, h2, hjlen⟩ := planShape_sel_boundary l j h hsel
  obtain ⟨st, hget⟩ := get?_of_lt_length l j hjlen
  refine ⟨j, ?_, ?_, ?_⟩
  · intro i hij hlen
    rw [updateAt_length] at hlen
    rw [statusAt_updateAt_ne _ _ _ _ (by omega)]
    exact h1 i hij hlen
  · intro i hij hlen
    rw [updateAt_length] at hlen
    rw [statusAt_updateAt_ne _ _ _ _ (by omega)]
    exact h2 i hij hlen
  · intro _
    rw [statusAt_updateAt_self, hget]
    exact Or.inr rfl

theorem planShape_completed_sel (l : List Story) (j : Nat) (h : PlanShape l)
    (hsel : nextIncompleteIdx l = some j) (ev : String) :
    PlanShape (updateAt (updateAt l j (fun st => { st with status := "in_progress" })) j
      (fun st => { st with status := "completed", completion_summary := ev })) := by
  obtain ⟨h1, h2, hjlen⟩ := planShape_sel_boundary l j h hsel
  obtain ⟨st, hget⟩ := get?_of_lt_length l j hjlen
  refine ⟨j + 1, ?_, ?_, ?_⟩
  · intro i hij hlen
    rw [updateAt_length, updateAt_length] at hlen
    by_cases hieq : i = j
    · subst hieq
      rw [statusAt_updateAt_self, updateAt_get?, if_pos rfl, hget]
      rfl
    · rw [statusAt_updateAt_ne _ _ _ _ hieq, statusAt_updateAt_ne _ _ _ _ hieq]
      exact h1 i (by omega) hlen
  · intro i hij hlen
    rw [updateAt_length, updateAt_length] at hlen
    rw [statusAt_updateAt_ne _ _ _ _ (by omega), statusAt_updateAt_ne _ _ _ _ (by omega)]
    exact h2 i (by omega) hlen
  · intro hlen
    rw [updateAt_length, updateAt_length] at hlen
    rw [statusAt_updateAt_ne _ _ _ _ (by omega), statusAt_updateAt_ne _ _ _ _ (by omega)]
    exact Or.inl (h2 (j + 1) (by omega) hlen)

theorem stepBody_planShape (env : Env) (K : Nat) (s : LoopState)
    (h : PlanShape s.prd.stories) : PlanShape (stepBody env K s).prd.stories := by
  cases hsel : nextIncompleteIdx s.prd.stories with
  | none => simpa [stepBody, hsel] using h
  | some j =>
    by_cases hc : (env.evalStory s.iteration s.progressSummary).is_complete
    · have hprd : (stepBody env K s).prd.stories
          = updateAt (updateAt s.prd.stories j
              (fun st => { st with status := "in_progress" })) j
              (fun st => { st with
                status := "completed"
                completion_summary :=
                  (env.evalStory s.iteration s.progressSummary).summary }) := by
        simp [stepBody, hsel, iterBody, hc]
      rw [hprd]
      exact planShape_completed_sel s.prd.stories j h hsel _
    · have hprd : (stepBody env K s).prd.stories
          = updateAt s.prd.stories j (fun st => { st with status := "in_progress" }) := by
        simp [stepBody, hsel, iterBody, hc]
      rw [hprd]
      exact planShape_marked s.prd.stories j h hsel

theorem stepBody_completed_monotone (env : Env) (K : Nat) (s : LoopState) (i : Nat)
    (h : statusAt s.prd.stories i = "completed") :
    statusAt (stepBody env K s).prd.stories i = "completed" := by
  cases hsel : nextIncompleteIdx s.prd.stories with
  | none => simpa [stepBody, hsel] using h
  | some j =>
    obtain ⟨⟨st, hget, hne⟩, _⟩ := nextIncompleteIdx_some _ _ hsel
    have hij : i ≠ j := by
      intro heq
      subst heq
      rw [statusAt_of_get? _ _ _ hget] at h
      exact hne h
    by_cases hc : (env.evalStory s.iteration s.progressSummary).is_complete
    · have hprd : (stepBody env K s).prd.stories
          = updateAt (updateAt s.prd.stories j
              (fun st => { st with status := "in_progress" })) j
              (fun st => { st with
                status := "completed"
                completion_summary :=
                  (env.evalStory s.iteration s.progressSummary).summary }) := by
        simp [stepBody, hsel, iterBody, hc]
      rw [hprd, statusAt_updateAt_ne _ _ _ _ hij, statusAt_updateAt_ne _ _ _ _ hij]
      exact h
    · have hprd : (stepBody env K s).prd.stories
          = updateAt s.prd.stories j (fun st => { st with status := "in_progress" }) := by
        simp [stepBody, hsel, iterBody, hc]
      rw [hprd, statusAt_updateAt_ne _ _ _ _ hij]
      exact h

theorem planShape_iterate (env : Env) (K : Nat) (s0 : LoopState)
    (h : PlanShape s0.prd.stories) :
    ∀ n, PlanShape ((stepBody env K)^[n] s0).prd.stories := by
  intro n
  induction n with
  | zero => simpa using h
  | succ n ih =>
    rw [Function.iterate_succ_apply']
    exact stepBody_planShape env K _ ih

theorem completed_monotone_iterate (env : Env) (K : Nat) (s0 : LoopState) :
    ∀ n m i, n ≤ m →
      statusAt ((stepBody env K)^[n] s0).prd.stories i = "completed" →
      statusAt ((stepBody env K)^[m] s0).prd.stories i = "completed" := by
  intro n m
  induction m with
  | zero =>
    intro i hle h
    have hn0 : n = 0 := by omega
    rw [hn0] at h
    exact h
  | succ m ih =>
    intro i hle h
    by_cases hc : n ≤ m
    · rw [Function.iterate_succ_apply']
      exact stepBody_completed_monotone env K _ i (ih i hc h)
    · have : n = m + 1 := by omega
      rw [this] at h
      exact h

end ShapeLemmas

/-- Claim C9 — starting from a freshly generated plan (all stories
`"pending"`, as the PRD generator creates them), at every point reachable
by the controller's step relation — including the mid-iteration state
right after the selected story is marked `"in_progress"` — at most one
story is `"in_progress"`, and a story whose status is `"completed"` never
changes status afterwards. -/
theorem single_in_progress_invariant :
    ∀ env K s0, (∀ st ∈ s0.prd.stories, st.status = "pending") →
      ∀ n,
        (∀ i j, statusAt ((stepBody env K)^[n] s0).prd.stories i = "in_progress" →
            statusAt ((stepBody env K)^[n] s0).prd.stories j = "in_progress" → i = j)
        ∧ (∀ jSel, nextIncompleteIdx ((stepBody env K)^[n] s0).prd.stories = some jSel →
            ∀ i j,
              statusAt (updateAt ((stepBody env K)^[n] s0).prd.stories jSel
                  (fun st => { st with status := "in_progress" })) i = "in_progress" →
              statusAt (updateAt ((stepBody env K)^[n] s0).prd.stories jSel
                  (fun st => { st with status := "in_progress" })) j = "in_progress" →
              i = j)
        ∧ (∀ m i, n ≤ m →
            statusAt ((stepBody env K)^[n] s0).prd.stories i = "completed" →
            statusAt ((stepBody env K)^[m] s0).prd.stories i = "completed") := by
  intro env K s0 hp n
  have hshape := planShape_iterate env K s0 (planShape_of_allPending _ hp) n
  refine ⟨planShape_at_most_one _ hshape, ?_, ?_⟩
  · intro jSel hsel i j hi hj
    exact planShape_at_most_one _ (planShape_marked _ _ hshape hsel) i j hi hj
  · intro m i hle h
    exact completed_monotone_iterate env K s0 n m i hle h

/-- Environment for the C9 witness: evaluator completes every story. -/
def envC9 : Env :=
  { generatePRD := ⟨[]⟩, genTasks := fun _ => ["t"], execTask := fun _ _ _ => "o",
    evalStory := fun _ _ => ⟨true, "ok", "- done"⟩, evalOverall := fun _ => "" }

/-- Controller state for the C9 witness: two pending stories. -/
def sC9 : LoopState :=
  { iteration := 0, history := [],
    prd := ⟨[⟨"story-1", "t", "d", "pending", ""⟩,
             ⟨"story-2", "u", "e", "pending", ""⟩]⟩, progressSummary := "" }

/-- Witness for C9: story 1 is completed after one step and stays
completed after the next. -/
theorem single_in_progress_invariant_witness :
    statusAt ((stepBody envC9 3)^[2] sC9).prd.stories 0 = "completed" :=
  (single_in_progress_invariant envC9 3 sC9 (by decide) 1).2.2 2 0 (by omega) (by decide)

section RetryLemmas

theorem stepBody_of_some (env : Env) (W : Nat) (s : LoopState) (j : Nat)
    (h : nextIncompleteIdx s.prd.stories = some j) :
    stepBody env W s = iterBody env W s j := by
  simp [stepBody, h]

theorem iterBody_sel_incomplete (env : Env) (W : Nat) (s : LoopState) (j : Nat)
    (hsel : nextIncompleteIdx s.prd.stories = some j)
    (hinc : (env.evalStory s.iteration s.progressSummary).is_complete = false) :
    nextIncompleteIdx (iterBody env W s j).prd.stories = some j := by
  have hprd : (iterBody env W s j).prd.stories
      = updateAt s.prd.stories j (fun st => { st with status := "in_progress" }) := by
    simp [iterBody, hinc]
  rw [hprd]
  exact nextIncompleteIdx_updateAt_self _ _ _ hsel (fun st => by simp)

theorem runLoop_unroll (env : Env) (W maxIter : Nat) :
    ∀ m s, (∀ i, i < m → ((stepBody env W)^[i] s).iteration < maxIter
        ∧ ∃ j, nextIncompleteIdx ((stepBody env W)^[i] s).prd.stories = some j) →
      ∀ fuel, runLoop env W maxIter (fuel + m) s
        = runLoop env W maxIter fuel ((stepBody env W)^[m] s) := by
  intro m
  induction m with
  | zero =>
    intro s _ fuel
    simp
  | succ m ih =>
    intro s hcond fuel
    have h0 := hcond 0 (by omega)
    rw [Function.iterate_zero_apply] at h0
    obtain ⟨hlt, j, hjsel⟩ := h0
    have hstep : runLoop env W maxIter (fuel + (m + 1)) s
        = runLoop env W maxIter (fuel + m) (stepBody env W s) := by
      have harith : fuel + (m + 1) = (fuel + m) + 1 := by omega
      rw [harith, stepBody_of_some env W s j hjsel]
      simp [runLoop, hlt, hjsel]
    rw [hstep]
    have hcond2 : ∀ i, i < m →
        ((stepBody env W)^[i] (stepBody env W s)).iteration < maxIter
        ∧ ∃ j2, nextIncompleteIdx
            ((stepBody env W)^[i] (stepBody env W s)).prd.stories = some j2 := by
      intro i hi
      have := hcond (i + 1) (by omega)
      rwa [Function.iterate_succ_apply] at this
    rw [ih (stepBody env W s) hcond2 fuel, ← Function.iterate_succ_apply]

end RetryLemmas

/-- Claim C4 — if, from a state whose selected story is at index `j`,
the story evaluator returns incomplete for the next `K` iterations and
complete on iteration `K`, and `K + 1` iterations remain within the
budget, then the controller selects story `j` on each of those `K + 1`
consecutive iterations (the iteration counter advancing by exactly one
per cycle), after which story `j` is `"completed"`, any subsequently
selected story lies strictly later in declaration order, and the
controller's loop indeed runs exactly those `K + 1` body cycles. -/
theorem story_retry_cycles :
    ∀ env W maxIter (s : LoopState) j K,
      nextIncompleteIdx s.prd.stories = some j →
      (∀ i ps, i < K → (env.evalStory (s.iteration + i) ps).is_complete = false) →
      (∀ ps, (env.evalStory (s.iteration + K) ps).is_complete = true) →
      s.iteration + K < maxIter →
      (∀ i, i ≤ K →
        nextIncompleteIdx ((stepBody env W)^[i] s).prd.stories = some j
        ∧ ((stepBody env W)^[i] s).iteration = s.iteration + i)
      ∧ ((stepBody env W)^[K + 1] s).iteration = s.iteration + (K + 1)
      ∧ statusAt ((stepBody env W)^[K + 1] s).prd.stories j = "completed"
      ∧ (∀ j2, nextIncompleteIdx ((stepBody env W)^[K + 1] s).prd.stories = some j2 →
          j < j2)
      ∧ ∀ fuel, runLoop env W maxIter (fuel + (K + 1)) s
          = runLoop env W maxIter fuel ((stepBody env W)^[K + 1] s) := by
  intro env W maxIter s j K hsel hinc hcomp hbud
  have ha : ∀ i, i ≤ K →
      nextIncompleteIdx ((stepBody env W)^[i] s).prd.stories = some j
      ∧ ((stepBody env W)^[i] s).iteration = s.iteration + i := by
    intro i
    induction i with
    | zero =>
      intro _
      rw [Function.iterate_zero_apply]
      exact ⟨hsel, by omega⟩
    | succ i ih =>
      intro hik
      obtain ⟨hseli, hiti⟩ := ih (by omega)
      rw [Function.iterate_succ_apply', stepBody_of_some env W _ j hseli]
      refine ⟨iterBody_sel_incomplete env W _ j hseli ?_, ?_⟩
      · rw [hiti]
        exact hinc i _ (by omega)
      · have hof : (iterBody env W ((stepBody env W)^[i] s) j).iteration
            = ((stepBody env W)^[i] s).iteration + 1 := rfl
        rw [hof, hiti]
        omega
  obtain ⟨hselK, hitK⟩ := ha K (le_refl K)
  have hcm : (env.evalStory ((stepBody env W)^[K] s).iteration
      ((stepBody env W)^[K] s).progressSummary).is_complete = true := by
    rw [hitK]
    exact hcomp _
  have hprdK : (iterBody env W ((stepBody env W)^[K] s) j).prd.stories
      = updateAt (updateAt ((stepBody env W)^[K] s).prd.stories j
          (fun st => { st with status := "in_progress" })) j
          (fun st => { st with
            status := "completed"
            completion_summary := (env.evalStory ((stepBody env W)^[K] s).iteration
              ((stepBody env W)^[K] s).progressSummary).summary }) := by
    simp [iterBody, hcm]
  obtain ⟨⟨st, hget, hne⟩, _⟩ := nextIncompleteIdx_some _ _ hselK
  refine ⟨ha, ?_, ?_, ?_, ?_⟩
  · rw [Function.iterate_succ_apply', stepBody_of_some env W _ j hselK]
    have hof : (iterBody env W ((stepBody env W)^[K] s) j).iteration
        = ((stepBody env W)^[K] s).iteration + 1 := rfl
    rw [hof, hitK]
    omega
  · rw [Function.iterate_succ_apply', stepBody_of_some env W _ j hselK,
      hprdK, statusAt_updateAt_self, updateAt_get?, if_pos rfl, hget]
    rfl
  · intro j2 h2
    rw [Function.iterate_succ_apply', stepBody_of_some env W _ j hselK, hprdK] at h2
    have hsel2 : nextIncompleteIdx (updateAt ((stepBody env W)^[K] s).prd.stories j
        (fun st => { st with status := "in_progress" })) = some j :=
      nextIncompleteIdx_updateAt_self _ _ _ hselK (fun st => by simp)
    exact nextIncompleteIdx_updateAt_completed _ _ _ hsel2 (fun st => rfl) j2 h2
  · intro fuel
    apply runLoop_unroll env W maxIter (K + 1) s
    intro i hi
    obtain ⟨hseli, hiti⟩ := ha i (by omega)
    exact ⟨by rw [hiti]; omega, j, hseli⟩

/-- Environment for the C4 witness: the story evaluator is incomplete on
iterations 0 and 1 and complete from iteration 2 on. -/
def envC4 : Env :=
  { generatePRD := ⟨[]⟩,
    genTasks := fun _ => ["t"],
    execTask := fun _ _ _ => "o",
    evalStory := fun i _ => ⟨decide (2 ≤ i), "s", "p"⟩,
    evalOverall := fun _ => "" }

/-- Controller state for the C4 witness: two pending stories. -/
def sC4 : LoopState :=
  { iteration := 0, history := [],
    prd := ⟨[⟨"story-1", "t", "d", "pending", ""⟩,
             ⟨"story-2", "u", "e", "pending", ""⟩]⟩, progressSummary := "" }

/-- Witness for C4 with K = 2 retries: after three cycles the counter is
at 3 and story 1 is completed. -/
theorem story_retry_cycles_witness :
    ((stepBody envC4 3)^[2 + 1] sC4).iteration = 0 + (2 + 1)
    ∧ statusAt ((stepBody envC4 3)^[2 + 1] sC4).prd.stories 0 = "completed" :=
  ⟨(story_retry_cycles envC4 3 10 sC4 0 2 (by decide)
      (fun i ps h => by simp only [envC4, sC4, decide_eq_false_iff_not]; omega)
      (fun _ => rfl) (by decide)).2.1,
   (story_retry_cycles envC4 3 10 sC4 0 2 (by decide)
      (fun i ps h => by simp only [envC4, sC4, decide_eq_false_iff_not]; omega)
      (fun _ => rfl) (by decide)).2.2.1⟩
